import Mathlib

/-!
Shallow embedding of `condorgame/prices.py` (class `PriceStore`).

Conventions used throughout:

* A Python `PriceEntry = tuple[int, float]` becomes `Int × α` with the price
  type `α` abstract: the store never computes with prices, it only stores and
  returns them, so every definition is polymorphic in the price type.
* The source keeps two parallel per-asset lists `d["ts"]` and `d["price"]`
  that every operation advances in lockstep; the embedding fuses them into a
  single `List (Int × α)` of (timestamp, price) pairs.
* `self.data` is a `defaultdict`; the embedding is an insertion-ordered
  association list.  Subscript access `self.data[symbol]` (used by
  `add_prices`, creating) and `self.data.get(asset)` (used by the read
  methods, non-creating) are both modelled through `dictGet`, with the
  creating write going through `dictSet`.
* The source computes cutoffs with
  `int((datetime.fromtimestamp(t, tz=timezone.utc) - timedelta(days=k)).timestamp())`;
  on the integer POSIX timestamps the store holds this is exact and equals
  `t - k * 86400`.
* The read methods are embedded as state transformers
  `PriceStore α → result × PriceStore α` so that the absence of mutation is
  part of the embedded statement rather than an artefact of purity.
-/

abbrev Asset := String

/-- `PriceEntry` from the source: one (timestamp, price) pair. -/
abbrev PriceEntry (α : Type) := Int × α

/-- The store: `self.data` (insertion-ordered mapping from asset to series)
and the `window_days` constructor argument. -/
structure PriceStore (α : Type) where
  data : List (Asset × List (PriceEntry α))
  window_days : Int
deriving DecidableEq

/-- Python `data.get(k)`: non-creating lookup in an insertion-ordered
association list. -/
def dictGet {σ : Type} : List (Asset × σ) → Asset → Option σ
  | [], _ => none
  | (k', v') :: tl, k => if k' = k then some v' else dictGet tl k

/-- Python `data[k] = v`: replace the value of an existing key in place,
else append the new binding at the end (dict insertion order). -/
def dictSet {σ : Type} : List (Asset × σ) → Asset → σ → List (Asset × σ)
  | [], k, v => [(k, v)]
  | (k', v') :: tl, k, v =>
    if k' = k then (k, v) :: tl else (k', v') :: dictSet tl k v

/-- The loop of Python `bisect.bisect_left(a, x)` on the half-open range
`[lo, hi)`.  The recursion depth is bounded by `hi - lo`, so an explicit fuel
argument (instantiated with `a.length` at the top-level call) makes the
search structurally recursive and therefore kernel-computable. -/
def bisectLeftGo (a : List Int) (x : Int) : Nat → Nat → Nat → Nat
  | 0, lo, _ => lo
  | fuel + 1, lo, hi =>
    if lo < hi then
      let mid := (lo + hi) / 2
      if a.getD mid 0 < x then bisectLeftGo a x fuel (mid + 1) hi
      else bisectLeftGo a x fuel lo mid
    else lo

/-- Python `bisect.bisect_left(a, x)`. -/
def bisect_left (a : List Int) (x : Int) : Nat :=
  bisectLeftGo a x a.length 0 a.length

/-- One iteration of the merge loop of `add_prices` (case 2, potential
overlap).  The state is the series built so far together with the tracked
`last_ts` (`none` embeds Python `None`).  In the state where `last_ts` is set
but the series is empty — unreachable from the call site, which always
starts the fold from a nonempty series — Python `d["price"][-1] = p` would
raise; the embedding totalises that corner as building a one-element
series. -/
def mergeStep {α : Type} (st : List (PriceEntry α) × Option Int) (e : PriceEntry α) :
    List (PriceEntry α) × Option Int :=
  match st.2 with
  | none => (st.1 ++ [e], some e.1)
  | some last_ts =>
    if last_ts < e.1 then (st.1 ++ [e], some e.1)
    else if e.1 = last_ts then (st.1.dropLast ++ [(last_ts, e.2)], some last_ts)
    else st

/-- The "Drop old points" block at the end of `add_prices`: the cutoff is the
oldest stored timestamp minus a hard-coded 5 days, and the prefix strictly
before the first index at or after the cutoff is dropped. -/
def pruneOld {α : Type} : List (PriceEntry α) → List (PriceEntry α)
  | [] => []
  | e :: tl =>
    let cutoff : Int := e.1 - 5 * 86400
    let i := bisect_left ((e :: tl).map Prod.fst) cutoff
    if 0 < i then (e :: tl).drop i else e :: tl

/-- The case split of `add_prices` on a nonempty batch with first entry
`e0`: fast-path bulk append when the series is empty or all new data is
strictly after the last known timestamp, else the merge loop seeded with
`last_ts = d["ts"][-1]`. -/
def mergeSeries {α : Type} (d : List (PriceEntry α)) (e0 : PriceEntry α)
    (entries : List (PriceEntry α)) : List (PriceEntry α) :=
  match d.getLast? with
  | none => d ++ entries
  | some lastE =>
    if lastE.1 < e0.1 then d ++ entries
    else (entries.foldl mergeStep (d, some lastE.1)).1

/-- `PriceStore.add_prices`.  The early return on an empty batch happens
before the creating access `self.data[symbol]`. -/
def add_prices {α : Type} (store : PriceStore α) (symbol : Asset)
    (entries : List (PriceEntry α)) : PriceStore α :=
  match entries with
  | [] => store
  | e0 :: _ =>
    let d := (dictGet store.data symbol).getD []
    ⟨dictSet store.data symbol (pruneOld (mergeSeries d e0 entries)),
      store.window_days⟩

/-- A sequence of `add_prices` calls, applied in order. -/
def runCalls {α : Type} (store : PriceStore α) :
    List (Asset × List (PriceEntry α)) → PriceStore α
  | [] => store
  | (sym, es) :: tl => runCalls (add_prices store sym es) tl

/-- A fresh store, `PriceStore(window_days)`. -/
def emptyStore (α : Type) (window_days : Int) : PriceStore α :=
  ⟨[], window_days⟩

/-- The start index computed by `get_prices`.  Python `if days:` is false
both for `None` and for `0`, so only a nonzero `days` triggers the cutoff
computation `ts[-1] - days` and the binary search. -/
def startIdx (ts : List Int) (days : Option Int) : Nat :=
  match days with
  | some d => if d ≠ 0 then bisect_left ts (ts.getLastD 0 - d * 86400) else 0
  | none => 0

/-- The greedy resampling loop of `get_prices`: emit the next entry whose
timestamp has reached `target_next`, then move the target to that entry's
timestamp plus `resolution`. -/
def resampleLoop {α : Type} (resolution : Int) :
    List (PriceEntry α) → Int → List (PriceEntry α)
  | [], _ => []
  | e :: tl, target_next =>
    if target_next ≤ e.1 then e :: resampleLoop resolution tl (e.1 + resolution)
    else resampleLoop resolution tl target_next

/-- `PriceStore.get_prices`, as a state transformer (result, store after). -/
def get_prices {α : Type} (store : PriceStore α) (asset : Asset)
    (days : Option Int) (resolution : Int) :
    List (PriceEntry α) × PriceStore α :=
  match dictGet store.data asset with
  | none => ([], store)
  | some s =>
    match s with
    | [] => ([], store)
    | e :: tl =>
      let ts := ((e :: tl).map Prod.fst)
      let start_idx := startIdx ts days
      if (e :: tl).length ≤ start_idx then ([], store)
      else
        let first := (e :: tl).getD start_idx e
        (first :: resampleLoop resolution ((e :: tl).drop (start_idx + 1))
          (first.1 + resolution), store)

/-- `PriceStore.get_last_price`, as a state transformer. -/
def get_last_price {α : Type} (store : PriceStore α) (asset : Asset) :
    Option (PriceEntry α) × PriceStore α :=
  match dictGet store.data asset with
  | none => (none, store)
  | some s => (s.getLast?, store)

/-- `PriceStore.get_closest_price`, as a state transformer. -/
def get_closest_price {α : Type} (store : PriceStore α) (asset : Asset)
    (time : Int) : Option (PriceEntry α) × PriceStore α :=
  match dictGet store.data asset with
  | none => (none, store)
  | some s =>
    match s with
    | [] => (none, store)
    | e :: tl =>
      let l := e :: tl
      let ts := l.map Prod.fst
      let pos := bisect_left ts time
      if pos = 0 then (some e, store)
      else if pos = l.length then (some (l.getLastD e), store)
      else
        let before := l.getD (pos - 1) e
        let after := l.getD pos e
        if time - before.1 ≤ after.1 - time then (some before, store)
        else (some after, store)

/-- Invariants I1 and I2: timestamps strictly increase along a series. -/
abbrev TsStrictSorted {α : Type} (s : List (PriceEntry α)) : Prop :=
  List.Pairwise (fun a b => a.1 < b.1) s

/-- A batch sorted ascending (non-strictly) by timestamp: the reading of the
precondition "pre-sorted ascending by timestamp" under which duplicate
timestamps may occur inside one batch. -/
abbrev TsAscending {α : Type} (s : List (PriceEntry α)) : Prop :=
  List.Pairwise (fun a b => a.1 ≤ b.1) s

/-- The store-wide invariant: every stored series satisfies I1 and I2. -/
def StoreSorted {α : Type} (store : PriceStore α) : Prop :=
  ∀ a s, dictGet store.data a = some s → TsStrictSorted s

theorem bisectLeftGo_eq_lo {a : List Int} {x : Int} :
    ∀ fuel lo hi, (∀ i, lo ≤ i → i < hi → x ≤ a.getD i 0) →
      bisectLeftGo a x fuel lo hi = lo := by
  intro fuel
  induction fuel with
  | zero => intro lo hi _; rfl
  | succ n ih =>
    intro lo hi h
    simp only [bisectLeftGo]
    by_cases hlh : lo < hi
    · have hmid1 : lo ≤ (lo + hi) / 2 := by omega
      have hmid2 : (lo + hi) / 2 < hi := by omega
      have hge := h _ hmid1 hmid2
      have hcond : ¬ (a.getD ((lo + hi) / 2) 0 < x) := by omega
      simp only [hlh, if_true, hcond, if_false]
      exact ih lo _ (fun i h1 h2 => h i h1 (by omega))
    · simp [hlh]

theorem bisectLeftGo_spec {a : List Int} {x : Int}
    (mono : ∀ i j, i ≤ j → j < a.length → a.getD i 0 ≤ a.getD j 0) :
    ∀ fuel lo hi, hi - lo ≤ fuel → lo ≤ hi → hi ≤ a.length →
      (∀ i, i < lo → a.getD i 0 < x) →
      (∀ i, hi ≤ i → i < a.length → x ≤ a.getD i 0) →
      lo ≤ bisectLeftGo a x fuel lo hi ∧
      bisectLeftGo a x fuel lo hi ≤ hi ∧
      (∀ i, i < bisectLeftGo a x fuel lo hi → a.getD i 0 < x) ∧
      (∀ i, bisectLeftGo a x fuel lo hi ≤ i → i < a.length → x ≤ a.getD i 0) := by
  intro fuel
  induction fuel with
  | zero =>
    intro lo hi hfuel hle hlen hlo hhi
    have : lo = hi := by omega
    subst this
    exact ⟨le_refl _, le_refl _, hlo, fun i h1 h2 => hhi i h1 h2⟩
  | succ n ih =>
    intro lo hi hfuel hle hlen hlo hhi
    simp only [bisectLeftGo]
    by_cases hlh : lo < hi
    · simp only [hlh, if_true]
      have hmid1 : lo ≤ (lo + hi) / 2 := by omega
      have hmid2 : (lo + hi) / 2 < hi := by omega
      by_cases hcmp : a.getD ((lo + hi) / 2) 0 < x
      · simp only [hcmp, if_true]
        have hlo' : ∀ i, i < (lo + hi) / 2 + 1 → a.getD i 0 < x := by
          intro i hi'
          exact lt_of_le_of_lt (mono i _ (by omega) (by omega)) hcmp
        obtain ⟨h1, h2, h3, h4⟩ :=
          ih ((lo + hi) / 2 + 1) hi (by omega) (by omega) hlen hlo' hhi
        exact ⟨by omega, h2, h3, h4⟩
      · simp only [hcmp, if_false]
        have hge : x ≤ a.getD ((lo + hi) / 2) 0 := by omega
        have hhi' : ∀ i, (lo + hi) / 2 ≤ i → i < a.length → x ≤ a.getD i 0 := by
          intro i h1 h2
          exact le_trans hge (mono _ i h1 h2)
        obtain ⟨h1, h2, h3, h4⟩ :=
          ih lo ((lo + hi) / 2) (by omega) (by omega) (by omega) hlo hhi'
        exact ⟨h1, by omega, h3, h4⟩
    · simp only [hlh, if_false]
      have : lo = hi := by omega
      subst this
      exact ⟨le_refl _, le_refl _, hlo, fun i h1 h2 => hhi i h1 h2⟩

theorem bisect_left_spec (a : List Int) (x : Int)
    (mono : ∀ i j, i ≤ j → j < a.length → a.getD i 0 ≤ a.getD j 0) :
    bisect_left a x ≤ a.length ∧
    (∀ i, i < bisect_left a x → a.getD i 0 < x) ∧
    (∀ i, bisect_left a x ≤ i → i < a.length → x ≤ a.getD i 0) := by
  obtain ⟨h1, h2, h3, h4⟩ :=
    bisectLeftGo_spec mono a.length 0 a.length (by omega) (by omega) (le_refl _)
      (by omega) (by omega)
  exact ⟨h2, h3, h4⟩

theorem bisect_left_eq_zero {a : List Int} {x : Int}
    (h : ∀ i, i < a.length → x ≤ a.getD i 0) : bisect_left a x = 0 :=
  bisectLeftGo_eq_lo a.length 0 a.length (fun i _ h2 => h i h2)

theorem fst_getD {α : Type} (s : List (PriceEntry α)) (d : PriceEntry α) (i : Nat)
    (h : i < s.length) : (s.map Prod.fst).getD i 0 = (s.getD i d).1 := by
  rw [List.getD_eq_getElem (s.map Prod.fst) 0 (by simpa using h),
    List.getD_eq_getElem s d h]
  simp

theorem tsStrictSorted_getD_lt {α : Type} {s : List (PriceEntry α)}
    (hs : TsStrictSorted s) {i j : Nat} (hij : i < j) (hj : j < s.length) :
    (s.map Prod.fst).getD i 0 < (s.map Prod.fst).getD j 0 := by
  have hp : List.Pairwise (fun a b : Int => a < b) (s.map Prod.fst) :=
    List.pairwise_map.mpr hs
  rw [List.getD_eq_getElem (s.map Prod.fst) 0 (by simpa using lt_trans hij hj),
    List.getD_eq_getElem (s.map Prod.fst) 0 (by simpa using hj)]
  exact List.pairwise_iff_getElem.mp hp i j (by simpa using lt_trans hij hj)
    (by simpa using hj) hij

theorem tsStrictSorted_getD_le {α : Type} {s : List (PriceEntry α)}
    (hs : TsStrictSorted s) {i j : Nat} (hij : i ≤ j) (hj : j < s.length) :
    (s.map Prod.fst).getD i 0 ≤ (s.map Prod.fst).getD j 0 := by
  rcases Nat.lt_or_ge i j with h | h
  · exact le_of_lt (tsStrictSorted_getD_lt hs h hj)
  · have : i = j := by omega
    subst this
    exact le_refl _

theorem tsStrictSorted_ascending {α : Type} {s : List (PriceEntry α)}
    (hs : TsStrictSorted s) : TsAscending s :=
  List.Pairwise.imp (fun h => le_of_lt h) hs

theorem tsAscending_head_le {α : Type} {e : PriceEntry α} {tl : List (PriceEntry α)}
    (hs : TsAscending (e :: tl)) : ∀ y ∈ e :: tl, e.1 ≤ y.1 := by
  intro y hy
  rcases List.mem_cons.mp hy with h | h
  · subst h; exact le_refl _
  · exact (List.pairwise_cons.mp hs).1 y h

theorem tsStrictSorted_le_getLast {α : Type} {l : List (PriceEntry α)}
    {x : PriceEntry α} (hs : TsStrictSorted l) (hl : l.getLast? = some x) :
    ∀ e ∈ l, e.1 ≤ x.1 := by
  have hx : l.dropLast ++ [x] = l :=
    List.dropLast_append_getLast? x (Option.mem_def.mpr hl)
  intro e he
  have hs' : TsStrictSorted (l.dropLast ++ [x]) := by rw [hx]; exact hs
  have he' : e ∈ l.dropLast ++ [x] := by rw [hx]; exact he
  rcases List.mem_append.mp he' with h | h
  · exact le_of_lt ((List.pairwise_append.mp hs').2.2 e h x (by simp))
  · simp only [List.mem_singleton] at h
    subst h
    exact le_refl _

theorem tsStrictSorted_of_map_fst_eq {α : Type} {s t : List (PriceEntry α)}
    (h : s.map Prod.fst = t.map Prod.fst) (hs : TsStrictSorted s) :
    TsStrictSorted t := by
  have h1 : List.Pairwise (fun a b : Int => a < b) (s.map Prod.fst) :=
    List.pairwise_map.mpr hs
  rw [h] at h1
  exact List.pairwise_map.mp h1

theorem pruneOld_eq_self {α : Type} {s : List (PriceEntry α)}
    (hs : TsAscending s) : pruneOld s = s := by
  match s with
  | [] => rfl
  | e :: tl =>
    have hz : bisect_left ((e :: tl).map Prod.fst) (e.1 - 5 * 86400) = 0 := by
      apply bisect_left_eq_zero
      intro i hi
      have hlen : i < (e :: tl).length := by simpa using hi
      rw [fst_getD _ e i hlen]
      have hmem : (e :: tl).getD i e ∈ e :: tl := by
        rw [List.getD_eq_getElem (e :: tl) e hlen]
        exact List.getElem_mem hlen
      have := tsAscending_head_le hs _ hmem
      omega
    simp only [pruneOld]
    rw [hz]
    simp

/-- The invariant of the merge loop: the accumulator is strictly sorted, and
the tracked `last_ts` is `none` exactly on the empty series, else the
timestamp of the last accumulated entry. -/
def MergeInv {α : Type} (st : List (PriceEntry α) × Option Int) : Prop :=
  TsStrictSorted st.1 ∧
    ((st.2 = none ∧ st.1 = []) ∨
      ∃ lt p, st.2 = some lt ∧ st.1.getLast? = some (lt, p))

theorem mergeStep_inv {α : Type} {l : List (PriceEntry α)} {o : Option Int}
    (h : MergeInv (l, o)) (e : PriceEntry α) : MergeInv (mergeStep (l, o) e) := by
  obtain ⟨hsort, hrest⟩ := h
  rcases hrest with ⟨h2, h1⟩ | ⟨lt, p, h2, h1⟩ <;> simp only at h1 h2
  · subst h2
    subst h1
    simp only [mergeStep, List.nil_append]
    exact ⟨List.pairwise_cons.mpr ⟨by simp, List.Pairwise.nil⟩,
      Or.inr ⟨e.1, e.2, rfl, by simp⟩⟩
  · subst h2
    simp only [mergeStep]
    by_cases hlt : lt < e.1
    · simp only [hlt, if_true]
      refine ⟨?_, Or.inr ⟨e.1, e.2, rfl, by simp⟩⟩
      refine List.pairwise_append.mpr ⟨hsort, ?_, ?_⟩
      · exact List.pairwise_cons.mpr ⟨by simp, List.Pairwise.nil⟩
      · intro x hx y hy
        simp only [List.mem_singleton] at hy
        subst hy
        have hb : x.1 ≤ lt := by
          have := tsStrictSorted_le_getLast hsort h1 x hx
          simpa using this
        omega
    · by_cases heq : e.1 = lt
      · rw [if_neg hlt, if_pos heq]
        have hx : l.dropLast ++ [(lt, p)] = l :=
          List.dropLast_append_getLast? (lt, p) (Option.mem_def.mpr h1)
        have hmap : l.map Prod.fst = (l.dropLast ++ [(lt, e.2)]).map Prod.fst := by
          conv_lhs => rw [← hx]
          simp
        refine ⟨tsStrictSorted_of_map_fst_eq hmap hsort,
          Or.inr ⟨lt, e.2, rfl, by simp⟩⟩
      · rw [if_neg hlt, if_neg heq]
        exact ⟨hsort, Or.inr ⟨lt, p, rfl, h1⟩⟩

theorem mergeFold_inv {α : Type} (entries : List (PriceEntry α)) :
    ∀ st : List (PriceEntry α) × Option Int, MergeInv st →
      MergeInv (entries.foldl mergeStep st) := by
  induction entries with
  | nil => intro st h; exact h
  | cons e tl ih =>
    intro st h
    obtain ⟨l, o⟩ := st
    exact ih _ (mergeStep_inv h e)

theorem mergeSeries_sorted {α : Type} (d : List (PriceEntry α))
    (e0 : PriceEntry α) (rest : List (PriceEntry α)) (hd : TsStrictSorted d)
    (hent : TsStrictSorted (e0 :: rest)) :
    TsStrictSorted (mergeSeries d e0 (e0 :: rest)) := by
  unfold mergeSeries
  rcases hlast : d.getLast? with _ | lastE
  · have hnil : d = [] := List.getLast?_eq_none_iff.mp hlast
    subst hnil
    simpa using hent
  · by_cases hlt : lastE.1 < e0.1
    · simp only [hlt, if_true]
      refine List.pairwise_append.mpr ⟨hd, hent, ?_⟩
      intro x hx y hy
      have h1 : x.1 ≤ lastE.1 := tsStrictSorted_le_getLast hd hlast x hx
      have h2 : e0.1 ≤ y.1 :=
        tsAscending_head_le (tsStrictSorted_ascending hent) y hy
      omega
    · simp only [hlt, if_false]
      exact (mergeFold_inv (e0 :: rest) (d, some lastE.1)
        ⟨hd, Or.inr ⟨lastE.1, lastE.2, rfl, by simpa using hlast⟩⟩).1

theorem dictGet_dictSet_self {σ : Type} (data : List (Asset × σ)) (k : Asset)
    (v : σ) : dictGet (dictSet data k v) k = some v := by
  induction data with
  | nil => simp [dictGet, dictSet]
  | cons hd tl ih =>
    obtain ⟨k', v'⟩ := hd
    by_cases h : k' = k
    · subst h
      simp [dictGet, dictSet]
    · simp [dictGet, dictSet, h, ih]

theorem dictGet_dictSet_ne {σ : Type} (data : List (Asset × σ)) {k a : Asset}
    (v : σ) (h : a ≠ k) : dictGet (dictSet data k v) a = dictGet data a := by
  induction data with
  | nil => simp [dictGet, dictSet, Ne.symm h]
  | cons hd tl ih =>
    obtain ⟨k', v'⟩ := hd
    by_cases hk : k' = k
    · subst hk
      simp [dictGet, dictSet, Ne.symm h]
    · simp [dictSet, dictGet, hk, ih]

theorem add_prices_sorted {α : Type} {store : PriceStore α} (sym : Asset)
    {entries : List (PriceEntry α)} (hstore : StoreSorted store)
    (hent : TsStrictSorted entries) :
    StoreSorted (add_prices store sym entries) := by
  cases entries with
  | nil => exact hstore
  | cons e0 rest =>
    intro a s hget
    simp only [add_prices] at hget
    by_cases ha : a = sym
    · subst ha
      rw [dictGet_dictSet_self] at hget
      have hd : TsStrictSorted ((dictGet store.data a).getD []) := by
        rcases hdg : dictGet store.data a with _ | s0
        · exact List.Pairwise.nil
        · exact hstore a s0 hdg
      have hm := mergeSeries_sorted ((dictGet store.data a).getD []) e0 rest hd hent
      rw [pruneOld_eq_self (tsStrictSorted_ascending hm)] at hget
      rw [← Option.some.injEq _ _ |>.mp hget] at *
      exact tsStrictSorted_of_map_fst_eq rfl hm
    · rw [dictGet_dictSet_ne _ _ ha] at hget
      exact hstore a s hget

theorem storeSorted_empty {α : Type} (w : Int) : StoreSorted (emptyStore α w) := by
  intro a s h
  simp [emptyStore, dictGet] at h

theorem runCalls_sorted {α : Type} :
    ∀ (calls : List (Asset × List (PriceEntry α))) (store : PriceStore α),
      StoreSorted store → (∀ c ∈ calls, TsStrictSorted c.2) →
      StoreSorted (runCalls store calls) := by
  intro calls
  induction calls with
  | nil => intro store h _; exact h
  | cons c tl ih =>
    intro store h hc
    obtain ⟨sym, es⟩ := c
    exact ih _ (add_prices_sorted sym h (hc (sym, es) (by simp)))
      (fun c' hc' => hc c' (by simp [hc']))

theorem resampleLoop_head_ge {α : Type} (resolution : Int) :
    ∀ (l : List (PriceEntry α)) (t : Int) (e : PriceEntry α),
      (resampleLoop resolution l t).head? = some e → t ≤ e.1 := by
  intro l
  induction l with
  | nil => intro t e h; simp [resampleLoop] at h
  | cons x tl ih =>
    intro t e h
    simp only [resampleLoop] at h
    by_cases hx : t ≤ x.1
    · rw [if_pos hx] at h
      simp only [List.head?_cons, Option.some.injEq] at h
      subst h
      exact hx
    · rw [if_neg hx] at h
      exact ih t e h

theorem resampleLoop_chain {α : Type} (resolution : Int) :
    ∀ (l : List (PriceEntry α)) (t : Int),
      List.Chain' (fun a b : PriceEntry α => a.1 + resolution ≤ b.1)
        (resampleLoop resolution l t) := by
  intro l
  induction l with
  | nil => intro t; simp [resampleLoop]
  | cons x tl ih =>
    intro t
    simp only [resampleLoop]
    by_cases hx : t ≤ x.1
    · rw [if_pos hx]
      refine List.chain'_cons'.mpr ⟨?_, ih _⟩
      intro y hy
      exact resampleLoop_head_ge resolution tl (x.1 + resolution) y
        (Option.mem_def.mp hy)
    · rw [if_neg hx]
      exact ih t

theorem find?_first {α : Type} (p : PriceEntry α → Bool) :
    ∀ (s : List (PriceEntry α)) (i : Nat),
      (∀ j, j < i → ∀ e, s.get? j = some e → p e = false) →
      ∀ e, s.get? i = some e → p e = true → s.find? p = some e := by
  intro s
  induction s with
  | nil => intro i _ e he _; simp at he
  | cons a tl ih =>
    intro i hfalse e he hp
    cases i with
    | zero =>
      simp only [List.get?_cons_zero, Option.some.injEq] at he
      subst he
      simp [List.find?_cons, hp]
    | succ k =>
      have ha : p a = false := hfalse 0 (by omega) a (by simp)
      simp only [List.get?_cons_succ] at he
      have htl := ih k
        (fun j hj e' he' => hfalse (j + 1) (by omega) e' (by simpa using he'))
        e he hp
      simp [List.find?_cons, ha, htl]

example : bisect_left [3, 5, 7] 5 = 1 := by decide

example :
    (get_prices (⟨[("X", [(1000, (100 : Int)), (1060, 101), (1120, 102)])], 30⟩)
      "X" none 120).1 = [(1000, 100), (1120, 102)] := by decide

example :
    (get_closest_price (⟨[("X", [(1000, (100 : Int)), (1060, 101), (1120, 102)])], 30⟩)
      "X" 1090).1 = some (1060, 101) := by decide

/-- C9: calling `add_prices` with an empty entries list leaves the entire
store unchanged — in particular no series is created for a previously
unknown asset — and, the embedding being total, no error is raised. -/
theorem C9_add_prices_empty_noop {α : Type} (store : PriceStore α)
    (asset : Asset) : add_prices store asset [] = store := rfl

/-- C10: every read operation leaves the store state exactly unchanged: the
reads use the non-creating lookup `data.get`, so querying an unknown asset
does not create an empty series for it. -/
theorem C10_reads_leave_store_unchanged {α : Type} (store : PriceStore α)
    (asset : Asset) (days : Option Int) (resolution time : Int) :
    (get_prices store asset days resolution).2 = store ∧
    (get_last_price store asset).2 = store ∧
    (get_closest_price store asset time).2 = store := by
  refine ⟨?_, ?_, ?_⟩
  · rcases hd : dictGet store.data asset with _ | s
    · simp [get_prices, hd]
    · rcases s with _ | ⟨e, tl⟩
      · simp [get_prices, hd]
      · simp only [get_prices, hd]
        split
        · rfl
        · rfl
  · rcases hd : dictGet store.data asset with _ | s <;> simp [get_last_price, hd]
  · rcases hd : dictGet store.data asset with _ | s
    · simp [get_closest_price, hd]
    · rcases s with _ | ⟨e, tl⟩
      · simp [get_closest_price, hd]
      · simp only [get_closest_price, hd]
        split
        · rfl
        · split
          · rfl
          · split
            · rfl
            · rfl

/-- C8: for an asset with no stored data (unknown asset or empty series),
`get_prices` returns the empty sequence and `get_last_price` and
`get_closest_price` return `none`; the embedding is total, so none of the
calls raises an error. -/
theorem C8_reads_no_data {α : Type} (store : PriceStore α) (asset : Asset)
    (days : Option Int) (resolution time : Int)
    (h : dictGet store.data asset = none ∨ dictGet store.data asset = some []) :
    (get_prices store asset days resolution).1 = [] ∧
    (get_last_price store asset).1 = none ∧
    (get_closest_price store asset time).1 = none := by
  rcases h with h | h <;>
    exact ⟨by simp [get_prices, h], by simp [get_last_price, h],
      by simp [get_closest_price, h]⟩

theorem C8_reads_no_data_witness :
    (dictGet (emptyStore Int 30).data "BTC" = none ∨
      dictGet (emptyStore Int 30).data "BTC" = some []) ∧
    (get_prices (emptyStore Int 30) "BTC" none 60).1 = [] ∧
    (get_last_price (emptyStore Int 30) "BTC").1 = none ∧
    (get_closest_price (emptyStore Int 30) "BTC" 0).1 = none :=
  ⟨Or.inl rfl, C8_reads_no_data (emptyStore Int 30) "BTC" none 60 0 (Or.inl rfl)⟩

/-- C2: on a nonempty series sorted ascending, the pruning cutoff — the
oldest stored timestamp minus 5 days — is strictly below every stored
timestamp, the binary-search index is 0, pruning removes nothing, and the
configured `window_days` plays no role in the data computed by
`add_prices`. -/
theorem C2_prune_never_removes {α : Type} (s : List (PriceEntry α))
    (hne : s ≠ []) (hs : TsAscending s) :
    (∀ e ∈ s, (s.map Prod.fst).headD 0 - 5 * 86400 < e.1) ∧
    bisect_left (s.map Prod.fst) ((s.map Prod.fst).headD 0 - 5 * 86400) = 0 ∧
    pruneOld s = s ∧
    (∀ (data : List (Asset × List (PriceEntry α))) (w w' : Int) (sym : Asset)
      (es : List (PriceEntry α)),
      (add_prices ⟨data, w⟩ sym es).data = (add_prices ⟨data, w'⟩ sym es).data) := by
  rcases s with _ | ⟨e, tl⟩
  · exact absurd rfl hne
  · have hhead : ((e :: tl).map Prod.fst).headD 0 = e.1 := by simp
    have hall : ∀ f ∈ e :: tl, e.1 - 5 * 86400 < f.1 := by
      intro f hf
      have := tsAscending_head_le hs f hf
      omega
    refine ⟨by rw [hhead]; exact hall, ?_, pruneOld_eq_self hs, ?_⟩
    · rw [hhead]
      apply bisect_left_eq_zero
      intro i hi
      have hlen : i < (e :: tl).length := by simpa using hi
      rw [fst_getD _ e i hlen]
      have hmem : (e :: tl).getD i e ∈ e :: tl := by
        rw [List.getD_eq_getElem (e :: tl) e hlen]
        exact List.getElem_mem hlen
      have := hall _ hmem
      omega
    · intro data w w' sym es
      cases es <;> rfl

theorem C2_prune_never_removes_witness :
    (([((1000 : Int), (10 : Int)), (1060, 11)] : List (PriceEntry Int)) ≠ [] ∧
      TsAscending [((1000 : Int), (10 : Int)), (1060, 11)]) ∧
    pruneOld [((1000 : Int), (10 : Int)), (1060, 11)] =
      [((1000 : Int), (10 : Int)), (1060, 11)] :=
  ⟨⟨by decide, by decide⟩,
    (C2_prune_never_removes [((1000 : Int), (10 : Int)), (1060, 11)]
      (by decide) (by decide)).2.2.1⟩

theorem mergeSeries_overwrite {α : Type} (s : List (PriceEntry α)) (t : Int)
    (p pOld : α) (hlast : s.getLast? = some (t, pOld)) :
    mergeSeries s (t, p) [(t, p)] = s.dropLast ++ [(t, p)] := by
  simp only [mergeSeries, hlast]
  rw [if_neg (by simp), List.foldl_cons, List.foldl_nil]
  simp only [mergeStep]
  rw [if_neg (by simp), if_pos (by simp)]

/-- C5: inserting one entry whose timestamp equals the current last
timestamp replaces only the last price: the asset now stores
`s.dropLast ++ [(t, p)]`, whose timestamps, length and earlier prices agree
with `s` and whose last price is the inserted one. -/
theorem C5_overwrite_last {α : Type} (store : PriceStore α) (asset : Asset)
    (s : List (PriceEntry α)) (t : Int) (p pOld : α)
    (hget : dictGet store.data asset = some s) (hs : TsStrictSorted s)
    (hlast : s.getLast? = some (t, pOld)) :
    dictGet (add_prices store asset [(t, p)]).data asset =
      some (s.dropLast ++ [(t, p)]) ∧
    (s.dropLast ++ [(t, p)]).map Prod.fst = s.map Prod.fst ∧
    (s.dropLast ++ [(t, p)]).length = s.length ∧
    (s.dropLast ++ [(t, p)]).dropLast = s.dropLast ∧
    (s.dropLast ++ [(t, p)]).getLast? = some (t, p) := by
  have hx : s.dropLast ++ [(t, pOld)] = s :=
    List.dropLast_append_getLast? (t, pOld) (Option.mem_def.mpr hlast)
  have hmap : (s.dropLast ++ [(t, p)]).map Prod.fst = s.map Prod.fst := by
    conv_rhs => rw [← hx]
    simp
  have hsorted : TsStrictSorted (s.dropLast ++ [(t, p)]) :=
    tsStrictSorted_of_map_fst_eq hmap.symm hs
  refine ⟨?_, hmap, ?_, List.dropLast_concat, List.getLast?_concat _⟩
  · simp only [add_prices, hget, Option.getD_some]
    rw [mergeSeries_overwrite s t p pOld hlast,
      pruneOld_eq_self (tsStrictSorted_ascending hsorted),
      dictGet_dictSet_self]
  · have := congrArg List.length hmap
    simpa using this

theorem C5_overwrite_last_witness :
    (dictGet (⟨[("X", [(1000, (100 : Int))])], 30⟩ : PriceStore Int).data "X" =
        some [(1000, 100)] ∧
      TsStrictSorted [((1000 : Int), (100 : Int))] ∧
      ([((1000 : Int), (100 : Int))]).getLast? = some (1000, 100)) ∧
    dictGet (add_prices (⟨[("X", [(1000, (100 : Int))])], 30⟩ : PriceStore Int)
        "X" [(1000, 105)]).data "X" = some ([(1000, 100)].dropLast ++ [(1000, 105)]) :=
  ⟨⟨by decide, by decide, by decide⟩,
    (C5_overwrite_last (⟨[("X", [(1000, (100 : Int))])], 30⟩ : PriceStore Int)
      "X" [(1000, 100)] 1000 105 100 (by decide) (by decide) (by decide)).1⟩

/-- C6: inserting one entry whose timestamp is strictly below the current
last timestamp leaves the stored series of that asset exactly unchanged; the
embedding is total, so no error is raised or reported. -/
theorem C6_out_of_order_dropped {α : Type} (store : PriceStore α)
    (asset : Asset) (s : List (PriceEntry α)) (t lt : Int) (p pl : α)
    (hget : dictGet store.data asset = some s) (hs : TsStrictSorted s)
    (hlast : s.getLast? = some (lt, pl)) (hlt : t < lt) :
    dictGet (add_prices store asset [(t, p)]).data asset = some s := by
  have hm : mergeSeries s (t, p) [(t, p)] = s := by
    simp only [mergeSeries, hlast]
    rw [if_neg (by simp; omega), List.foldl_cons, List.foldl_nil]
    simp only [mergeStep]
    rw [if_neg (by simp; omega), if_neg (by omega)]
  simp only [add_prices, hget, Option.getD_some]
  rw [hm, pruneOld_eq_self (tsStrictSorted_ascending hs), dictGet_dictSet_self]

theorem C6_out_of_order_dropped_witness :
    (dictGet (⟨[("X", [(1000, (100 : Int))])], 30⟩ : PriceStore Int).data "X" =
        some [(1000, 100)] ∧
      TsStrictSorted [((1000 : Int), (100 : Int))] ∧
      ([((1000 : Int), (100 : Int))]).getLast? = some (1000, 100) ∧
      (900 : Int) < 1000) ∧
    dictGet (add_prices (⟨[("X", [(1000, (100 : Int))])], 30⟩ : PriceStore Int)
        "X" [(900, 42)]).data "X" = some [(1000, 100)] :=
  ⟨⟨by decide, by decide, by decide, by decide⟩,
    C6_out_of_order_dropped (⟨[("X", [(1000, (100 : Int))])], 30⟩ : PriceStore Int)
      "X" [(1000, 100)] 900 1000 42 100 (by decide) (by decide) (by decide)
      (by decide)⟩

/-- C1 as stated fails on the code: a batch that is pre-sorted ascending by
timestamp (non-strictly, as batches with a repeated timestamp are) can hold
two entries with the same timestamp, and the fast path of `add_prices`
appends both, so the stored series is not strictly increasing. -/
theorem C1_counterexample :
    TsAscending [((10 : Int), (0 : Int)), (10, 1)] ∧
    dictGet (runCalls (emptyStore Int 30) [("X", [(10, 0), (10, 1)])]).data "X" =
      some [(10, 0), (10, 1)] ∧
    ¬ TsStrictSorted [((10 : Int), (0 : Int)), (10, 1)] := by
  refine ⟨by decide, by decide, by decide⟩

/-- C1 amended: after any sequence of `add_prices` calls in which each batch
is pre-sorted strictly ascending by timestamp, every stored series is
strictly increasing in timestamp with no duplicates. -/
theorem C1_sorted_invariant {α : Type} (w : Int)
    (calls : List (Asset × List (PriceEntry α)))
    (hc : ∀ c ∈ calls, TsStrictSorted c.2) :
    StoreSorted (runCalls (emptyStore α w) calls) :=
  runCalls_sorted calls (emptyStore α w) (storeSorted_empty w) hc

theorem C1_sorted_invariant_witness :
    (∀ c ∈ [("X", [((10 : Int), (0 : Int)), (20, 1)]),
        ("X", [(15, 2), (20, 3), (25, 4)]), ("Y", [(5, 9)])],
      TsStrictSorted c.2) ∧
    StoreSorted (runCalls (emptyStore Int 30)
      [("X", [(10, 0), (20, 1)]), ("X", [(15, 2), (20, 3), (25, 4)]),
        ("Y", [(5, 9)])]) :=
  ⟨by decide, C1_sorted_invariant 30 _ (by decide)⟩

/-- C4: any two consecutive entries returned by `get_prices` are at least
`resolution` apart in timestamp, and the first returned entry is the entry
of the series at the computed start index. -/
theorem C4_resample_spacing {α : Type} (store : PriceStore α) (asset : Asset)
    (days : Option Int) (resolution : Int) (s : List (PriceEntry α))
    (hget : dictGet store.data asset = some s) (hs : TsStrictSorted s) :
    List.Chain' (fun a b : PriceEntry α => a.1 + resolution ≤ b.1)
      (get_prices store asset days resolution).1 ∧
    ((get_prices store asset days resolution).1 ≠ [] →
      (get_prices store asset days resolution).1.head? =
        s.get? (startIdx (s.map Prod.fst) days)) := by
  rcases s with _ | ⟨e, tl⟩
  · simp [get_prices, hget]
  · simp only [get_prices, hget]
    by_cases hlen : (e :: tl).length ≤ startIdx ((e :: tl).map Prod.fst) days
    · rw [if_pos hlen]
      simp
    · rw [if_neg hlen]
      constructor
      · refine List.chain'_cons'.mpr ⟨?_, resampleLoop_chain resolution _ _⟩
        intro y hy
        exact resampleLoop_head_ge resolution _ _ y (Option.mem_def.mp hy)
      · intro _
        have hidx : startIdx ((e :: tl).map Prod.fst) days < (e :: tl).length := by
          omega
        rw [List.head?_cons, List.get?_eq_get hidx,
          List.getD_eq_getElem (e :: tl) e hidx, List.get_eq_getElem]

theorem C4_resample_spacing_witness :
    (dictGet (⟨[("X", [(1000, (100 : Int)), (1060, 101), (1120, 102)])],
        30⟩ : PriceStore Int).data "X" =
        some [(1000, 100), (1060, 101), (1120, 102)] ∧
      TsStrictSorted [((1000 : Int), (100 : Int)), (1060, 101), (1120, 102)]) ∧
    List.Chain' (fun a b : PriceEntry Int => a.1 + 120 ≤ b.1)
      (get_prices (⟨[("X", [(1000, (100 : Int)), (1060, 101), (1120, 102)])],
        30⟩ : PriceStore Int) "X" none 120).1 :=
  ⟨⟨by decide, by decide⟩,
    (C4_resample_spacing (⟨[("X", [(1000, (100 : Int)), (1060, 101),
        (1120, 102)])], 30⟩ : PriceStore Int) "X" none 120
      [(1000, 100), (1060, 101), (1120, 102)] (by decide) (by decide)).1⟩

/-- C7 as stated fails on the code: Python `if days:` is false for `days = 0`,
so an explicitly given `days = 0` starts at index 0 instead of at the first
entry at or after the cutoff `last - 0` (which would be the last entry).
Store `[(0, 1), (100, 2)]` for `"X"`: the claimed start entry is `(100, 2)`
but the code returns the sequence headed by `(0, 1)`. -/
theorem C7_counterexample :
    List.find? (fun f => decide ((100 : Int) - 0 * 86400 ≤ f.1))
        [((0 : Int), (1 : Int)), (100, 2)] = some (100, 2) ∧
    (get_prices (⟨[("X", [(0, (1 : Int)), (100, 2)])], 30⟩ : PriceStore Int)
        "X" (some 0) 60).1.head? = some (0, 1) ∧
    (some ((0 : Int), (1 : Int)) : Option (PriceEntry Int)) ≠ some (100, 2) := by
  refine ⟨by decide, by decide, by decide⟩

/-- C7 amended: whenever a nonzero `days` argument is given, the sequence
returned by `get_prices` starts at the first stored entry whose timestamp is
at or after the cutoff (last stored timestamp minus `days` days), and is
empty when no stored entry reaches the cutoff; when `days` is not given or
is zero (Python truthiness treats `0` like not given), the sequence starts
at index 0. -/
theorem C7_start_cutoff {α : Type} (store : PriceStore α) (asset : Asset)
    (days : Option Int) (resolution : Int) (s : List (PriceEntry α))
    (hget : dictGet store.data asset = some s) (hne : s ≠ [])
    (hs : TsStrictSorted s) :
    (∀ d : Int, days = some d → d ≠ 0 →
      (∀ e, s.find?
          (fun f => decide ((s.map Prod.fst).getLastD 0 - d * 86400 ≤ f.1)) =
            some e →
        (get_prices store asset days resolution).1.head? = some e) ∧
      (s.find?
          (fun f => decide ((s.map Prod.fst).getLastD 0 - d * 86400 ≤ f.1)) =
            none →
        (get_prices store asset days resolution).1 = [])) ∧
    ((days = none ∨ days = some 0) →
      (get_prices store asset days resolution).1.head? = s.head?) := by
  rcases s with _ | ⟨e, tl⟩
  · exact absurd rfl hne
  · have hml : ((e :: tl).map Prod.fst).length = (e :: tl).length := by simp
    constructor
    · intro d hd hd0
      subst hd
      have hstart : startIdx ((e :: tl).map Prod.fst) (some d) =
          bisect_left ((e :: tl).map Prod.fst)
            (((e :: tl).map Prod.fst).getLastD 0 - d * 86400) := by
        simp [startIdx, hd0]
      have mono : ∀ i j, i ≤ j → j < ((e :: tl).map Prod.fst).length →
          ((e :: tl).map Prod.fst).getD i 0 ≤ ((e :: tl).map Prod.fst).getD j 0 := by
        intro i j hij hj
        exact tsStrictSorted_getD_le hs hij (by omega)
      obtain ⟨hle, hbelow, habove⟩ := bisect_left_spec
        ((e :: tl).map Prod.fst)
        (((e :: tl).map Prod.fst).getLastD 0 - d * 86400) mono
      by_cases hcase : (e :: tl).length ≤ bisect_left ((e :: tl).map Prod.fst)
          (((e :: tl).map Prod.fst).getLastD 0 - d * 86400)
      · have hnone : (e :: tl).find?
            (fun f => decide (((e :: tl).map Prod.fst).getLastD 0 - d * 86400 ≤ f.1)) =
              none := by
          rw [List.find?_eq_none]
          intro x hx
          obtain ⟨j, hj, hxj⟩ := List.mem_iff_getElem.mp hx
          have hx1 : x.1 = ((e :: tl).map Prod.fst).getD j 0 := by
            rw [fst_getD _ e j hj, List.getD_eq_getElem (e :: tl) e hj,
              hxj]
          have := hbelow j (by omega)
          simp only [decide_eq_true_eq]
          omega
        have hres : (get_prices store asset (some d) resolution).1 = [] := by
          simp only [get_prices, hget]
          rw [if_pos (by rw [hstart]; exact hcase)]
        refine ⟨?_, fun _ => hres⟩
        intro e' he'
        rw [hnone] at he'
        cases he'
      · have hlt : bisect_left ((e :: tl).map Prod.fst)
            (((e :: tl).map Prod.fst).getLastD 0 - d * 86400) < (e :: tl).length := by
          omega
        have hfind : (e :: tl).find?
            (fun f => decide (((e :: tl).map Prod.fst).getLastD 0 - d * 86400 ≤ f.1)) =
              some ((e :: tl).getD (bisect_left ((e :: tl).map Prod.fst)
                (((e :: tl).map Prod.fst).getLastD 0 - d * 86400)) e) := by
          apply find?_first _ _ (bisect_left ((e :: tl).map Prod.fst)
            (((e :: tl).map Prod.fst).getLastD 0 - d * 86400))
          · intro j hj e' he'
            have hjlen : j < (e :: tl).length := by omega
            obtain ⟨hjl, hg⟩ := List.get?_eq_some.mp he'
            have he'' : e' = (e :: tl).getD j e := by
              rw [List.getD_eq_getElem (e :: tl) e hjlen, ← hg,
                List.get_eq_getElem]
            have := hbelow j hj
            rw [fst_getD _ e j hjlen] at this
            subst he''
            simp only [decide_eq_false_iff_not]
            omega
          · rw [List.get?_eq_get hlt,
              List.getD_eq_getElem (e :: tl) e hlt, List.get_eq_getElem]
          · have := habove _ (le_refl _) (by omega)
            rw [fst_getD _ e _ hlt] at this
            simp only [decide_eq_true_eq]
            exact this
        have hres : (get_prices store asset (some d) resolution).1.head? =
            some ((e :: tl).getD (bisect_left ((e :: tl).map Prod.fst)
              (((e :: tl).map Prod.fst).getLastD 0 - d * 86400)) e) := by
          simp only [get_prices, hget]
          rw [if_neg (by rw [hstart]; omega)]
          rw [List.head?_cons, hstart]
        refine ⟨?_, ?_⟩
        · intro e' he'
          rw [hfind] at he'
          rw [hres, he']
        · intro hn
          rw [hfind] at hn
          cases hn
    · intro hdays
      have hstart0 : startIdx ((e :: tl).map Prod.fst) days = 0 := by
        rcases hdays with h | h <;> subst h <;> simp [startIdx]
      simp only [get_prices, hget]
      rw [if_neg (by rw [hstart0]; simp)]
      rw [List.head?_cons, hstart0]
      rfl

theorem C7_start_cutoff_witness :
    (dictGet (⟨[("X", [(0, (1 : Int)), (200000, 2), (400000, 3)])],
        30⟩ : PriceStore Int).data "X" =
        some [(0, 1), (200000, 2), (400000, 3)] ∧
      ([((0 : Int), (1 : Int)), (200000, 2), (400000, 3)] :
        List (PriceEntry Int)) ≠ [] ∧
      TsStrictSorted [((0 : Int), (1 : Int)), (200000, 2), (400000, 3)]) ∧
    ((get_prices (⟨[("X", [(0, (1 : Int)), (200000, 2), (400000, 3)])],
        30⟩ : PriceStore Int) "X" (some 3) 60).1.head? = some (200000, 2)) := by
  have h := (C7_start_cutoff (⟨[("X", [(0, (1 : Int)), (200000, 2),
      (400000, 3)])], 30⟩ : PriceStore Int) "X" (some 3) 60
    [(0, 1), (200000, 2), (400000, 3)] (by decide) (by decide) (by decide)).1
    3 rfl (by decide)
  exact ⟨⟨by decide, by decide, by decide⟩, h.1 (200000, 2) (by decide)⟩

/-- C3: on a nonempty sorted series, `get_closest_price` returns a stored
entry whose timestamp minimizes the absolute distance to the query time,
and on an equidistant tie the entry with the earlier timestamp is
returned. -/
theorem C3_closest_minimizes {α : Type} (store : PriceStore α) (asset : Asset)
    (time : Int) (s : List (PriceEntry α))
    (hget : dictGet store.data asset = some s) (hne : s ≠ [])
    (hs : TsStrictSorted s) :
    ∃ e, (get_closest_price store asset time).1 = some e ∧ e ∈ s ∧
      ∀ f ∈ s, |e.1 - time| ≤ |f.1 - time| ∧
        (|e.1 - time| = |f.1 - time| → e.1 ≤ f.1) := by
  rcases s with _ | ⟨a, tl⟩
  · exact absurd rfl hne
  · have hml : ((a :: tl).map Prod.fst).length = (a :: tl).length := by simp
    have mono : ∀ i j, i ≤ j → j < ((a :: tl).map Prod.fst).length →
        ((a :: tl).map Prod.fst).getD i 0 ≤ ((a :: tl).map Prod.fst).getD j 0 := by
      intro i j hij hj
      exact tsStrictSorted_getD_le hs hij (by omega)
    obtain ⟨hle, hbelow, habove⟩ :=
      bisect_left_spec ((a :: tl).map Prod.fst) time mono
    have hdecomp : ∀ f ∈ (a :: tl), ∃ j, j < (a :: tl).length ∧
        f.1 = ((a :: tl).map Prod.fst).getD j 0 := by
      intro f hf
      obtain ⟨j, hj, hfj⟩ := List.mem_iff_getElem.mp hf
      exact ⟨j, hj, by
        rw [fst_getD _ a j hj, List.getD_eq_getElem (a :: tl) a hj,
          hfj]⟩
    have hgetD_mem : ∀ j, j < (a :: tl).length →
        (a :: tl).getD j a ∈ (a :: tl) := by
      intro j hj
      rw [List.getD_eq_getElem (a :: tl) a hj]
      exact List.getElem_mem hj
    have hgetD_fst : ∀ j, j < (a :: tl).length →
        ((a :: tl).getD j a).1 = ((a :: tl).map Prod.fst).getD j 0 := by
      intro j hj
      rw [fst_getD _ a j hj]
    simp only [get_closest_price, hget]
    set pos := bisect_left ((a :: tl).map Prod.fst) time with hposdef
    by_cases h0 : pos = 0
    · rw [if_pos h0]
      refine ⟨a, rfl, by simp, ?_⟩
      intro f hf
      obtain ⟨j, hj, hfj⟩ := hdecomp f hf
      have haf0 : ((a :: tl).map Prod.fst).getD 0 0 = a.1 := by simp
      have hge0 : time ≤ ((a :: tl).map Prod.fst).getD 0 0 :=
        habove 0 (by omega) (by omega)
      have hmono0 : ((a :: tl).map Prod.fst).getD 0 0 ≤
          ((a :: tl).map Prod.fst).getD j 0 :=
        tsStrictSorted_getD_le hs (Nat.zero_le j) (by omega)
      rw [hfj, ← haf0, abs_of_nonneg (by omega), abs_of_nonneg (by omega)]
      exact ⟨by omega, fun h => by omega⟩
    · rw [if_neg h0]
      by_cases hn : pos = (a :: tl).length
      · rw [if_pos hn]
        have hlpos : 0 < (a :: tl).length := by simp
        have hlast_eq : (a :: tl).getLastD a =
            (a :: tl).getD ((a :: tl).length - 1) a := by
          rw [List.getLastD_eq_getLast?,
            List.getLast?_eq_getLast _ (List.cons_ne_nil a tl),
            Option.getD_some, List.getLast_eq_getElem,
            List.getD_eq_getElem (a :: tl) a (by omega)]
        refine ⟨(a :: tl).getLastD a, rfl, ?_, ?_⟩
        · rw [hlast_eq]
          exact hgetD_mem _ (by omega)
        · intro f hf
          obtain ⟨j, hj, hfj⟩ := hdecomp f hf
          have hjlt : ((a :: tl).map Prod.fst).getD j 0 < time :=
            hbelow j (by omega)
          have hxlt : ((a :: tl).map Prod.fst).getD ((a :: tl).length - 1) 0 <
              time := hbelow _ (by omega)
          have hmj : ((a :: tl).map Prod.fst).getD j 0 ≤
              ((a :: tl).map Prod.fst).getD ((a :: tl).length - 1) 0 :=
            tsStrictSorted_getD_le hs (by omega) (by omega)
          rw [hlast_eq, hfj, hgetD_fst _ (by omega),
            abs_of_nonpos (by omega), abs_of_nonpos (by omega)]
          exact ⟨by omega, fun h => by omega⟩
      · rw [if_neg hn]
        have hpos_lt : pos < (a :: tl).length := by omega
        have hpos_pos : 0 < pos := Nat.pos_of_ne_zero h0
        have hblt : ((a :: tl).map Prod.fst).getD (pos - 1) 0 < time :=
          hbelow (pos - 1) (by omega)
        have hage : time ≤ ((a :: tl).map Prod.fst).getD pos 0 :=
          habove pos (le_refl _) (by omega)
        have hbf : ((a :: tl).getD (pos - 1) a).1 =
            ((a :: tl).map Prod.fst).getD (pos - 1) 0 := hgetD_fst _ (by omega)
        have haf : ((a :: tl).getD pos a).1 =
            ((a :: tl).map Prod.fst).getD pos 0 := hgetD_fst _ (by omega)
        by_cases htie : time - ((a :: tl).getD (pos - 1) a).1 ≤
            ((a :: tl).getD pos a).1 - time
        · rw [if_pos htie]
          rw [hbf, haf] at htie
          refine ⟨(a :: tl).getD (pos - 1) a, rfl, hgetD_mem _ (by omega), ?_⟩
          intro f hf
          obtain ⟨j, hj, hfj⟩ := hdecomp f hf
          by_cases hjp : j < pos
          · have hmj : ((a :: tl).map Prod.fst).getD j 0 ≤
                ((a :: tl).map Prod.fst).getD (pos - 1) 0 :=
              tsStrictSorted_getD_le hs (by omega) (by omega)
            rw [hfj, hbf, abs_of_nonpos (by omega), abs_of_nonpos (by omega)]
            exact ⟨by omega, fun h => by omega⟩
          · have hmj : ((a :: tl).map Prod.fst).getD pos 0 ≤
                ((a :: tl).map Prod.fst).getD j 0 :=
              tsStrictSorted_getD_le hs (by omega) (by omega)
            rw [hfj, hbf, abs_of_nonpos (by omega), abs_of_nonneg (by omega)]
            exact ⟨by omega, fun h => by omega⟩
        · rw [if_neg htie]
          rw [hbf, haf] at htie
          refine ⟨(a :: tl).getD pos a, rfl, hgetD_mem _ (by omega), ?_⟩
          intro f hf
          obtain ⟨j, hj, hfj⟩ := hdecomp f hf
          by_cases hjp : j < pos
          · have hmj : ((a :: tl).map Prod.fst).getD j 0 ≤
                ((a :: tl).map Prod.fst).getD (pos - 1) 0 :=
              tsStrictSorted_getD_le hs (by omega) (by omega)
            rw [hfj, haf, abs_of_nonneg (by omega), abs_of_nonpos (by omega)]
            exact ⟨by omega, fun h => by omega⟩
          · have hmj : ((a :: tl).map Prod.fst).getD pos 0 ≤
                ((a :: tl).map Prod.fst).getD j 0 :=
              tsStrictSorted_getD_le hs (by omega) (by omega)
            rw [hfj, haf, abs_of_nonneg (by omega), abs_of_nonneg (by omega)]
            exact ⟨by omega, fun h => by omega⟩

theorem C3_closest_minimizes_witness :
    (dictGet (⟨[("X", [(1000, (100 : Int)), (1060, 101), (1120, 102)])],
        30⟩ : PriceStore Int).data "X" =
        some [(1000, 100), (1060, 101), (1120, 102)] ∧
      ([((1000 : Int), (100 : Int)), (1060, 101), (1120, 102)] :
        List (PriceEntry Int)) ≠ [] ∧
      TsStrictSorted [((1000 : Int), (100 : Int)), (1060, 101), (1120, 102)]) ∧
    (∃ e, (get_closest_price (⟨[("X", [(1000, (100 : Int)), (1060, 101),
        (1120, 102)])], 30⟩ : PriceStore Int) "X" 1090).1 = some e ∧
      e ∈ [((1000 : Int), (100 : Int)), (1060, 101), (1120, 102)] ∧
      ∀ f ∈ [((1000 : Int), (100 : Int)), (1060, 101), (1120, 102)],
        |e.1 - 1090| ≤ |f.1 - 1090| ∧
          (|e.1 - 1090| = |f.1 - 1090| → e.1 ≤ f.1)) :=
  ⟨⟨by decide, by decide, by decide⟩,
    C3_closest_minimizes (⟨[("X", [(1000, (100 : Int)), (1060, 101),
      (1120, 102)])], 30⟩ : PriceStore Int) "X" 1090
      [(1000, 100), (1060, 101), (1120, 102)] (by decide) (by decide)
      (by decide)⟩
